import Mathlib

/-!
Verification of the ProtoScript protobuf runtime and code generator.

The embedding covers:
* the binary wire decoder `BinaryDecoder` (varint reads, zigzag, byte
  reads, the instance cache) translated from the runtime source;
* the behavior of the code emitted by the protobuf/JSON serializer
  generators (field emission guards, JSON key fallback chain, enum
  converters, empty-message codecs, the unknown-field skip loop).

JavaScript numbers are modelled by `Nat`/`Int` with explicit reductions
modulo `2^32`/`2^64`.  Reading a JavaScript typed array out of bounds
yields `undefined`, which behaves like `0` in every bitwise or comparison
context exercised here; it is modelled by `List.getD _ 0`.  The runtime
modules `goog/asserts` (whose `assert`/`fail` are production no-ops: the
spec records decode failure solely through the decoder error flag) and
`utils` (the 64-bit join helpers), and the `BinaryReader`/`BinaryWriter`
wrappers, are not part of the provided sources; where a claim needs them
they are modelled from the spec and marked as such.
-/

set_option linter.unusedVariables false

namespace ProtoScript

/-- Decoder state, from `BinaryDecoder` in the runtime source: a byte
source `bytes`, block bounds `start`/`end_`, a read `cursor` and an
`error` flag.  The byte source holds byte values (`< 256` for real
buffers). -/
structure BinaryDecoder where
  bytes : List Nat
  start : Nat
  end_ : Nat
  cursor : Nat
  error : Bool
deriving Repr, DecidableEq

/-- JavaScript `this.bytes_[i]`: out-of-bounds reads yield `undefined`,
which acts as `0` in the bitwise/comparison contexts used by the
decoder. -/
def getByte (d : BinaryDecoder) (i : Nat) : Nat :=
  d.bytes.getD i 0

/-- `BinaryDecoder.prototype.getError`: `this.error_ || this.cursor_ < 0
|| this.cursor_ > this.end_`.  The cursor is a `Nat` here, so the
`cursor < 0` disjunct cannot fire (the source never sets a negative
cursor either). -/
def BinaryDecoder.getError (d : BinaryDecoder) : Bool :=
  d.error || decide (d.cursor > d.end_)

/-- One of the two bounded continuation loops inside
`readSplitVarint64`: iterate over the given shift amounts while the last
byte read (`temp`, seeded with `128`) has its continuation bit, each step
reading a byte, or-ing `(byte and 0x7f) <<< shift` into the accumulator
(a 32-bit register, hence the reduction mod `2^32`) and advancing the
cursor.  Returns (cursor, temp, accumulator). -/
def svLoop (bytes : List Nat) : List Nat → Nat → Nat → Nat → Nat × Nat × Nat
  | [], cursor, temp, acc => (cursor, temp, acc)
  | s :: rest, cursor, temp, acc =>
    if 128 ≤ temp then
      let t := bytes.getD cursor 0
      svLoop bytes rest (cursor + 1) t ((acc ||| ((t &&& 127) <<< s)) % 2 ^ 32)
    else (cursor, temp, acc)

/-- `BinaryDecoder.prototype.readSplitVarint64`, translated statement by
statement: read up to four low bytes, then the straddling fifth byte,
then up to five high bytes; if the varint still has not terminated the
decoder error flag is set and no value is produced (the source calls the
assertion helper `fail`, a production no-op, then sets `this.error_`).
The conversion callback is left to the caller; the split
(lowBits, highBits) pair is returned instead. -/
def readSplitVarint64 (d : BinaryDecoder) : Option (Nat × Nat) × BinaryDecoder :=
  let r1 := svLoop d.bytes [0, 7, 14, 21] d.cursor 128 0
  let c1 := r1.1
  let t1 := r1.2.1
  let low1 := r1.2.2
  if 128 ≤ t1 then
    let t := getByte d c1
    let low2 := (low1 ||| ((t &&& 127) <<< 28)) % 2 ^ 32
    let high1 := (t &&& 127) >>> 4
    if 128 ≤ t then
      let r2 := svLoop d.bytes [3, 10, 17, 24, 31] (c1 + 1) t high1
      let c2 := r2.1
      let t2 := r2.2.1
      let high2 := r2.2.2
      if t2 < 128 then
        (some (low2, high2), { d with cursor := c2 })
      else
        (none, { d with cursor := c2, error := true })
    else
      (some (low2, high1), { d with cursor := c1 + 1 })
  else
    (some (low1, 0), { d with cursor := c1 })

/-- Two's-complement reinterpretation of a 32-bit pattern, as JavaScript
bitwise operators produce. -/
def toInt32 (n : Nat) : Int :=
  if n % 2 ^ 32 < 2 ^ 31 then (n % 2 ^ 32 : Nat) else (n % 2 ^ 32 : Nat) - 2 ^ 32

/-- Two's-complement reinterpretation of a 64-bit pattern. -/
def toInt64 (n : Nat) : Int :=
  if n % 2 ^ 64 < 2 ^ 63 then (n % 2 ^ 64 : Nat) else (n % 2 ^ 64 : Nat) - 2 ^ 64

/-- `BinaryDecoder.prototype.readUnsignedVarint32`, the unrolled 32-bit
varint read.  Each early return carries the (nonnegative) value read so
far; the fifth byte keeps only its low four bits; if the varint runs
longer, up to five further continuation bytes are consumed
(short-circuit `and` of post-increment reads) and the truncated value is
returned reinterpreted as a signed 32-bit number.  The error flag is
never touched (the source's `assert(false)` is a production no-op). -/
def readUnsignedVarint32 (d : BinaryDecoder) : Int × BinaryDecoder :=
  let t0 := getByte d (d.cursor + 0)
  let x0 := t0 &&& 127
  if t0 < 128 then ((x0 : Int), { d with cursor := d.cursor + 1 }) else
  let t1 := getByte d (d.cursor + 1)
  let x1 := x0 ||| ((t1 &&& 127) <<< 7)
  if t1 < 128 then ((x1 : Int), { d with cursor := d.cursor + 2 }) else
  let t2 := getByte d (d.cursor + 2)
  let x2 := x1 ||| ((t2 &&& 127) <<< 14)
  if t2 < 128 then ((x2 : Int), { d with cursor := d.cursor + 3 }) else
  let t3 := getByte d (d.cursor + 3)
  let x3 := x2 ||| ((t3 &&& 127) <<< 21)
  if t3 < 128 then ((x3 : Int), { d with cursor := d.cursor + 4 }) else
  let t4 := getByte d (d.cursor + 4)
  let x4 : Nat := (x3 ||| ((t4 &&& 15) <<< 28)) % 2 ^ 32
  if t4 < 128 then ((x4 : Int), { d with cursor := d.cursor + 5 }) else
  if getByte d (d.cursor + 5) < 128 then (toInt32 x4, { d with cursor := d.cursor + 6 }) else
  if getByte d (d.cursor + 6) < 128 then (toInt32 x4, { d with cursor := d.cursor + 7 }) else
  if getByte d (d.cursor + 7) < 128 then (toInt32 x4, { d with cursor := d.cursor + 8 }) else
  if getByte d (d.cursor + 8) < 128 then (toInt32 x4, { d with cursor := d.cursor + 9 }) else
  (toInt32 x4, { d with cursor := d.cursor + 10 })

/-- `BinaryDecoder.prototype.readBytes`: an invalid length (negative, or
reading past the end of the *underlying buffer* `this.bytes_.length`)
sets the error flag and returns an empty array; otherwise the
`length`-byte subarray at the cursor is returned and the cursor
advances. -/
def readBytes (d : BinaryDecoder) (length : Int) : List Nat × BinaryDecoder :=
  if length < 0 ∨ (d.cursor : Int) + length > (d.bytes.length : Int) then
    ([], { d with error := true })
  else
    ((d.bytes.drop d.cursor).take length.toNat,
      { d with cursor := d.cursor + length.toNat })

/-- Zigzag decoding of a 32-bit pattern: the source formula
`(n >>> 1) ^ -(n & 1)` on JavaScript 32-bit integers.  `-(n & 1)` is `-1`
(pattern `2^32 - 1`) when `n` is odd and `0` otherwise; the xor result is
reinterpreted as signed. -/
def zigzagDecode32 (n : Nat) : Int :=
  toInt32 ((n % 2 ^ 32 / 2) ^^^ (if n % 2 = 1 then 2 ^ 32 - 1 else 0))

/-- Modelled from the spec: the zigzag *encoding* lives in the writer,
which is not among the provided sources.  Per the spec's glossary
("remapping of signed integers so that small-magnitude negatives encode
compactly") and round-trip law, a signed 32-bit `s` maps to `2*s` when
nonnegative and `-2*s - 1` when negative. -/
def zigzagEncode32 (s : Int) : Nat :=
  (if 0 ≤ s then 2 * s else -2 * s - 1).toNat

/-- Modelled from the spec: `joinZigzag64` (in the absent `utils`
module) is the 64-bit zigzag decode, "analogous on the two-half
representation": the two 32-bit halves are joined into a 64-bit pattern
`n` and `(n >>> 1) ^ -(n & 1)` is computed at width 64. -/
def joinZigzag64 (lowBits highBits : Nat) : Int :=
  let n := (highBits % 2 ^ 32) * 2 ^ 32 + lowBits % 2 ^ 32
  toInt64 ((n / 2) ^^^ (if n % 2 = 1 then 2 ^ 64 - 1 else 0))

/-- Modelled from the spec: 64-bit zigzag encoding of
`s ∈ [-2^63, 2^63)`, the width-64 analogue of `zigzagEncode32`. -/
def zigzagEncode64 (s : Int) : Nat :=
  (if 0 ≤ s then 2 * s else -2 * s - 1).toNat

/-- `BinaryDecoder.prototype.readZigzagVarint32`: read an unsigned
32-bit varint and apply the zigzag formula to its (unsigned
reinterpretation of the) result. -/
def readZigzagVarint32 (d : BinaryDecoder) : Int × BinaryDecoder :=
  let r := readUnsignedVarint32 d
  (zigzagDecode32 (r.1 % 2 ^ 32).toNat, r.2)

/-- `BinaryDecoder.prototype.readZigzagVarint64`:
`readSplitVarint64(joinZigzag64)`. -/
def readZigzagVarint64 (d : BinaryDecoder) : Option Int × BinaryDecoder :=
  let r := readSplitVarint64 d
  (r.1.map (fun p => joinZigzag64 p.1 p.2), r.2)

/-- `BinaryDecoder.prototype.clear`: reset all decoder state (`bytes_ =
null` is modelled by the empty byte list). -/
def clearDecoder (d : BinaryDecoder) : BinaryDecoder :=
  { bytes := [], start := 0, end_ := 0, cursor := 0, error := false }

/-- `BinaryDecoder.prototype.free`: clear the decoder and push it onto
the instance cache only when the cache holds fewer than 100 entries. -/
def freeDecoder (d : BinaryDecoder) (cache : List BinaryDecoder) : List BinaryDecoder :=
  if cache.length < 100 then cache ++ [clearDecoder d] else cache

/-- `BinaryDecoder.alloc`: pop an instance off the cache (JavaScript
`Array.pop` takes the last element) or create a fresh one, leaving the
cache untouched when it is empty. -/
def allocDecoder (cache : List BinaryDecoder) : BinaryDecoder × List BinaryDecoder :=
  match cache.getLast? with
  | some d => (d, cache.dropLast)
  | none => ({ bytes := [], start := 0, end_ := 0, cursor := 0, error := false }, cache)

/-- A call against the decoder instance cache: either
`BinaryDecoder.alloc` or `BinaryDecoder.prototype.free` on some
decoder. -/
inductive CacheOp where
  | alloc
  | free (d : BinaryDecoder)

/-- Effect of one cache call on the global `instanceCache_`. -/
def cacheStep (cache : List BinaryDecoder) : CacheOp → List BinaryDecoder
  | .alloc => (allocDecoder cache).2
  | .free d => freeDecoder d cache

/-- Run a sequence of alloc/free calls against the cache. -/
def cacheRun (ops : List CacheOp) (cache : List BinaryDecoder) : List BinaryDecoder :=
  ops.foldl cacheStep cache

/-- JavaScript runtime values as far as the generated serializers
inspect them: numbers (integral), strings, booleans, `null`,
`undefined`, arrays and byte arrays (only their length is consulted by
the emission guards), and plain message objects. -/
inductive JsValue where
  | num (n : Int)
  | str (s : String)
  | bool (b : Bool)
  | null
  | jsUndefined
  | arr (len : Nat)
  | bytes (len : Nat)
  | obj
deriving Repr, DecidableEq

/-- JavaScript truthiness (`if (v)`): `0`, `""`, `false`, `null` and
`undefined` are falsy; every object (including an empty array) is
truthy. -/
def truthy : JsValue → Bool
  | .num n => n != 0
  | .str s => s != ""
  | .bool b => b
  | .null => false
  | .jsUndefined => false
  | .arr _ => true
  | .bytes _ => true
  | .obj => true

/-- Truthiness of `v?.length`: non-zero for arrays, byte arrays and
strings; `undefined` (falsy) for numbers, booleans and plain objects;
the optional chain makes it `undefined` for `null`/`undefined`. -/
def lengthTruthy : JsValue → Bool
  | .arr n => n != 0
  | .bytes n => n != 0
  | .str s => s != ""
  | _ => false

/-- JavaScript loose `v != undefined` is false exactly on `null` and
`undefined`; `nullish v` is true on those two values. -/
def nullish : JsValue → Bool
  | .null => true
  | .jsUndefined => true
  | _ => false

/-- A generated enum: the ordered list of (enumerator name, integer
value) pairs emitted as `switch` cases. -/
abbrev EnumDef := List (String × Int)

/-- Generated `_toInt`: `switch` over the enumerator names in
declaration order; the default case passes the value through unchanged
("unknown values are preserved as numbers").  A non-string value matches
no `case 'name':` label. -/
def toIntJs (e : EnumDef) (v : JsValue) : JsValue :=
  match v with
  | .str s =>
    match e.find? (fun p => p.1 == s) with
    | some p => .num p.2
    | none => v
  | _ => v

/-- Generated `_fromInt`: `switch` over the enumerator values in
declaration order returning the name; the default case returns the
number unchanged. -/
def fromIntJs (e : EnumDef) (i : Int) : JsValue :=
  match e.find? (fun p => p.2 == i) with
  | some p => .str p.1
  | none => .num i

/-- The wire-codec read-method tags carried by IR fields. -/
inductive ReadTag where
  | readInt32
  | readUint32
  | readSint32
  | readInt64
  | readUint64
  | readSint64
  | readFixed32
  | readSfixed32
  | readFixed64
  | readSfixed64
  | readFloat
  | readDouble
  | readBool
  | readString
  | readBytes
  | readEnum
  | readMessage
deriving Repr, DecidableEq

/-- The shape attributes of an IR field that the binary write-side
emission guard consults. -/
structure FieldMeta where
  repeated : Bool
  optional : Bool
  read : ReadTag
deriving Repr, DecidableEq

/-- The emission guard generated by `_writeMessage` (the `if (...)`
chain in `writeProtobufSerializers`): `msg.f?.length` for repeated or
bytes fields, `msg.f != undefined` for proto3 optional fields,
`msg.f && E._toInt(msg.f)` for enum fields, and `msg.f` otherwise. -/
def emitGuard (e : EnumDef) (f : FieldMeta) (v : JsValue) : Bool :=
  if f.repeated || f.read == .readBytes then lengthTruthy v
  else if f.optional then !nullish v
  else if f.read == .readEnum then truthy v && truthy (toIntJs e v)
  else truthy v

/-- A sequence-valued field holding a non-empty sequence (the spec's
"write iff sequence non-empty"). -/
def isNonEmptySeq : JsValue → Bool
  | .arr n => n != 0
  | .bytes n => n != 0
  | _ => false

/-- The spec's field emission policy table, stated in the spec's own
terms: repeated/bytes write iff the sequence is non-empty; proto3
optional writes iff set (not undefined/null); enum writes iff the value
maps through `_toInt` to a non-zero integer; everything else writes iff
truthy. -/
def specWritePolicy (e : EnumDef) (f : FieldMeta) (v : JsValue) : Bool :=
  if f.repeated || f.read == .readBytes then isNonEmptySeq v
  else if f.optional then !nullish v
  else if f.read == .readEnum then
    match toIntJs e v with
    | .num n => n != 0
    | _ => false
  else truthy v

/-- Values a sequence-typed (repeated or bytes) field can hold under the
generated types: a sequence, or unset. -/
def isSeqLike : JsValue → Bool
  | .arr _ => true
  | .bytes _ => true
  | .null => true
  | .jsUndefined => true
  | _ => false

/-- Values an enum-typed field can hold under the generated types: a
declared enumerator name or a raw number. -/
def isValidEnumVal (e : EnumDef) : JsValue → Bool
  | .num _ => true
  | .str s => (e.find? (fun p => p.1 == s)).isSome
  | _ => false

/-- A JSON object as the generated JSON `_readMessage` sees it after
`JSON.parse`: an association list of key/value pairs. -/
abbrev JsObj := List (String × JsValue)

/-- JavaScript `json["k"]`: the first binding of the key, or
`undefined`. -/
def lookupJson (j : JsObj) (k : String) : JsValue :=
  match j.find? (fun p => p.1 == k) with
  | some p => p.2
  | none => .jsUndefined

/-- A `??` (nullish-coalescing) chain of key lookups: take the first
non-nullish lookup; the final candidate's value is returned as is. -/
def coalesceChain (j : JsObj) : List String → JsValue
  | [] => .jsUndefined
  | [k] => lookupJson j k
  | k :: ks => if nullish (lookupJson j k) then coalesceChain j ks else lookupJson j k

/-- The candidate key list built by the generated JSON `_readMessage`:
`json[jsonName]`, then `json[name]` when `name !== jsonName`, then
`json[protoName]` when `protoName !== name` (the `filter(Boolean)` step
drops suppressed candidates). -/
def codeGetField (jsonName name protoName : String) (j : JsObj) : JsValue :=
  coalesceChain j
    (([some jsonName,
       if name ≠ jsonName then some name else none,
       if protoName ≠ name then some protoName else none]).filterMap id)

/-- The spec's key fallback chain: always `jsonName`, then the generated
attribute name, then the proto field name, in that order. -/
def specGetField (jsonName name protoName : String) (j : JsObj) : JsValue :=
  coalesceChain j [jsonName, name, protoName]

/-- The generated JSON `_readMessage` handling of one non-repeated,
non-message scalar field: `const v = <fallback chain>; if (v) { msg.f =
conv(v); }`, where the converter `conv` applied inside the truthiness
guard is the identity for plain scalars, `BigInt` for 64-bit integer
(bigint) fields, and `decodeBase64Bytes` for bytes fields.  Returns the
new value of `msg.f` given its current value. -/
def jsonReadScalarField (jsonName name protoName : String)
    (conv : JsValue → JsValue) (j : JsObj) (cur : JsValue) : JsValue :=
  let v := codeGetField jsonName name protoName j
  if truthy v then conv v else cur

/-- A message type with no fields. -/
structure EmptyMessage where
deriving Repr, DecidableEq

/-- Generated binary `encode` for an empty message type: the emitter
short-circuits to `return new Uint8Array();`. -/
def emptyMessageEncode (msg : Option EmptyMessage) : List Nat := []

/-- Generated binary `decode` for an empty message type: the emitter
short-circuits to `return {};`. -/
def emptyMessageDecode (bytes : List Nat) : EmptyMessage := {}

/-- Generated JSON `encode` for an empty message type: the emitter
short-circuits to returning the two-character string of an empty JSON
object. -/
def emptyMessageEncodeJSON (msg : Option EmptyMessage) : String := "\x7b\x7d"

/-- Base-128 varint encoding of a natural number (glossary: seven
payload bits per byte, high bit as continuation). -/
def varintEnc (n : Nat) : List Nat :=
  if h : n < 128 then [n]
  else (n % 128 + 128) :: varintEnc (n / 128)
decreasing_by exact Nat.div_lt_self (by omega) (by omega)

/-- Modelled from the spec: the `BinaryReader` wrapper (not among the
provided sources) reads a varint from the front of the remaining bytes:
the value accumulates seven bits per byte until a byte without the
continuation bit terminates it; running out of bytes first is a read
failure. -/
def readVarintList : List Nat → Option (Nat × List Nat)
  | [] => none
  | b :: rest =>
    if b < 128 then some (b, rest)
    else
      match readVarintList rest with
      | none => none
      | some (v, r) => some (b % 128 + 128 * v, r)

/-- `BinaryDecoder.prototype.skipVarint`, on the remaining byte list:
`while (bytes[cursor] & 0x80) cursor++; cursor++;`. -/
def skipVarintList : List Nat → List Nat
  | [] => []
  | b :: rest => if b &&& 128 != 0 then skipVarintList rest else rest

/-- Modelled from the spec: the reader's `skipField` consumes exactly
the bytes of the current field's payload, honoring the wire type: varint
(read until terminator), 64-bit (8 bytes), length-delimited
(length varint plus that many payload bytes), 32-bit (4 bytes); groups
and invalid wire types are unsupported. -/
def skipFieldBytes (wt : Nat) (l : List Nat) : Option (List Nat) :=
  if wt = 0 then some (skipVarintList l)
  else if wt = 1 then some (l.drop 8)
  else if wt = 2 then
    match readVarintList l with
    | none => none
    | some (len, r) => some (r.drop len)
  else if wt = 5 then some (l.drop 4)
  else none

/-- One encoded field record on the wire, by wire type: a varint field
(wire type 0) carrying a value, a 64-bit field (wire type 1), a
length-delimited field (wire type 2), or a 32-bit field (wire type 5). -/
inductive FieldRec where
  | varintRec (fn : Nat) (v : Nat)
  | fixed64Rec (fn : Nat) (b : List Nat)
  | delimRec (fn : Nat) (data : List Nat)
  | fixed32Rec (fn : Nat) (b : List Nat)
deriving Repr, DecidableEq

/-- Field number of a record. -/
def FieldRec.fn : FieldRec → Nat
  | .varintRec fn _ => fn
  | .fixed64Rec fn _ => fn
  | .delimRec fn _ => fn
  | .fixed32Rec fn _ => fn

/-- Wire type of a record. -/
def FieldRec.wt : FieldRec → Nat
  | .varintRec _ _ => 0
  | .fixed64Rec _ _ => 1
  | .delimRec _ _ => 2
  | .fixed32Rec _ _ => 5

/-- Payload bytes of a record (everything after the tag varint). -/
def FieldRec.payload : FieldRec → List Nat
  | .varintRec _ v => varintEnc v
  | .fixed64Rec _ b => b
  | .delimRec _ data => varintEnc data.length ++ data
  | .fixed32Rec _ b => b

/-- Wire encoding of a record: the tag varint
`fieldNumber <<< 3 ||| wireType` followed by the payload. -/
def FieldRec.enc (r : FieldRec) : List Nat :=
  varintEnc (r.fn * 8 + r.wt) ++ r.payload

/-- Well-formedness of a record: fixed-width payloads have their exact
width (varint and length-delimited payloads are well formed by
construction). -/
def FieldRec.Wf : FieldRec → Prop
  | .fixed64Rec _ b => b.length = 8
  | .fixed32Rec _ b => b.length = 4
  | _ => True

instance : DecidablePred FieldRec.Wf := by
  intro r
  cases r <;> simp only [FieldRec.Wf] <;> infer_instance

/-- Whether a record is a varint (wire type 0) record. -/
def FieldRec.isVarint : FieldRec → Bool
  | .varintRec _ _ => true
  | _ => false

/-- Wire encoding of a record sequence. -/
def streamEnc (rs : List FieldRec) : List Nat :=
  (rs.map FieldRec.enc).flatten

/-- Message state for the embedded universe of scalar varint fields: the
declared fields' current integer values, keyed by field number
(`initialize()` supplies the defaults). -/
abbrev MsgState := List (Nat × Int)

/-- `msg.f = value` for the field with the given number. -/
def setField (m : MsgState) (fn : Nat) (v : Int) : MsgState :=
  m.map fun p => if p.1 = fn then (fn, v) else p

/-- The generated binary `_readMessage` loop for a message whose
declared fields (`decl`) are non-repeated varint scalars:
`while (reader.nextField()) { switch (reader.getFieldNumber()) { ... } }`.
`nextField` stops at the end of the input or on a malformed tag; a
declared field number dispatches to a scalar varint read and assignment,
and the default case is `reader.skipField()`. -/
def readMsgLoopF (decl : List Nat) : Nat → MsgState → List Nat → MsgState
  | 0, msg, _ => msg
  | fuel + 1, msg, bytes =>
    match readVarintList bytes with
    | none => msg
    | some (tag, r1) =>
      if tag / 8 ∈ decl then
        match readVarintList r1 with
        | none => msg
        | some (v, r2) => readMsgLoopF decl fuel (setField msg (tag / 8) (v : Int)) r2
      else
        match skipFieldBytes (tag % 8) r1 with
        | none => msg
        | some r2 => readMsgLoopF decl fuel msg r2

/-- The loop on a complete input: every iteration consumes at least the
tag byte, so a fuel of `bytes.length + 1` never runs out (the
fuel-independence lemma below makes this precise). -/
def readMsgLoop (decl : List Nat) (msg : MsgState) (bytes : List Nat) : MsgState :=
  readMsgLoopF decl (bytes.length + 1) msg bytes

/-- Semantic effect of one record on the message: a declared varint
field stores its value, everything else (in particular any record whose
field number is not declared) leaves the message unchanged. -/
def applyRec (decl : List Nat) (msg : MsgState) : FieldRec → MsgState
  | .varintRec fn v => if fn ∈ decl then setField msg fn (v : Int) else msg
  | _ => msg

/-- A record sequence a generated message type can be run against: every
record is well formed, and records carrying a declared field number are
varint records (the embedded universe's declared fields are varint
scalars). -/
def WfStream (decl : List Nat) (rs : List FieldRec) : Prop :=
  ∀ r ∈ rs, r.Wf ∧ (r.fn ∈ decl → r.isVarint = true)

instance (decl : List Nat) (rs : List FieldRec) : Decidable (WfStream decl rs) := by
  unfold WfStream
  infer_instance

/-! Helper lemmas. -/

/-- Xor with an all-ones mask of width `w` complements a `w`-bit
number. -/
theorem xor_all_ones {w a : Nat} (h : a < 2 ^ w) :
    a ^^^ (2 ^ w - 1) = 2 ^ w - 1 - a := by
  apply Nat.eq_of_testBit_eq
  intro i
  have hsub : 2 ^ w - 1 - a = 2 ^ w - (a + 1) := by omega
  rw [Nat.testBit_xor, Nat.testBit_two_pow_sub_one, hsub,
    Nat.testBit_two_pow_sub_succ h]
  by_cases hi : i < w
  · simp [hi]
  · have hlt : a < 2 ^ i :=
      lt_of_lt_of_le h (Nat.pow_le_pow_right (by norm_num) (le_of_not_lt hi))
    simp [hi, Nat.testBit_lt_two_pow hlt]

/-- One cache call cannot push the cache past 100 entries. -/
theorem cacheStep_le (cache : List BinaryDecoder) (op : CacheOp)
    (h : cache.length ≤ 100) : (cacheStep cache op).length ≤ 100 := by
  cases op with
  | alloc =>
    simp only [cacheStep, allocDecoder]
    cases hl : cache.getLast? with
    | none => exact h
    | some d => simp only [List.length_dropLast]; omega
  | free d =>
    simp only [cacheStep, freeDecoder]
    split
    · simp only [List.length_append, List.length_cons, List.length_nil]; omega
    · exact h

/-- The 100-entry bound is preserved by any sequence of cache calls. -/
theorem cacheRun_le (ops : List CacheOp) :
    ∀ cache : List BinaryDecoder, cache.length ≤ 100 →
      (cacheRun ops cache).length ≤ 100 := by
  induction ops with
  | nil => intro cache h; simpa [cacheRun] using h
  | cons op rest ih =>
    intro cache h
    simpa [cacheRun, List.foldl_cons] using ih (cacheStep cache op) (cacheStep_le cache op h)

/-- A key bound in no pair of the object looks up to `undefined`. -/
theorem lookupJson_eq_jsUndefined {j : JsObj} {k : String}
    (h : ∀ p ∈ j, p.1 ≠ k) : lookupJson j k = .jsUndefined := by
  have : j.find? (fun p => p.1 == k) = none :=
    List.find?_eq_none.mpr (by intro p hp; simpa using h p hp)
  simp [lookupJson, this]

/-- Looking up the key just prepended to an object yields its value. -/
theorem lookupJson_cons_self (j : JsObj) (k : String) (v : JsValue) :
    lookupJson ((k, v) :: j) k = v := by
  simp [lookupJson, List.find?]

/-- Looking up any other key skips a prepended pair. -/
theorem lookupJson_cons_ne (j : JsObj) (k k' : String) (v : JsValue)
    (h : k ≠ k') : lookupJson ((k, v) :: j) k' = lookupJson j k' := by
  have hb : (k == k') = false := beq_eq_false_iff_ne.mpr h
  simp [lookupJson, List.find?, hb]

/-- A coalescing chain over keys whose lookups are all falsy produces a
falsy value. -/
theorem coalesceChain_falsy (j : JsObj) (ks : List String)
    (h : ∀ k ∈ ks, truthy (lookupJson j k) = false) :
    truthy (coalesceChain j ks) = false := by
  induction ks with
  | nil => simp [coalesceChain, truthy]
  | cons k ks ih =>
    cases ks with
    | nil => simpa [coalesceChain] using h k (by simp)
    | cons k' ks' =>
      simp only [coalesceChain]
      split
      · exact ih (fun x hx => h x (List.mem_cons_of_mem _ hx))
      · exact h k (List.mem_cons_self _ _)

/-- With nodup enumerator names, the name-keyed lookup of a member pair
finds exactly that pair. -/
theorem find?_name_of_nodup {e : EnumDef} {p : String × Int}
    (hn : (e.map Prod.fst).Nodup) (hm : p ∈ e) :
    e.find? (fun q => q.1 == p.1) = some p := by
  induction e with
  | nil => cases hm
  | cons q rest ih =>
    rcases List.mem_cons.mp hm with rfl | hmem
    · simp
    · have hq : q.1 ≠ p.1 := by
        intro heq
        have hpm : p.1 ∈ rest.map Prod.fst := List.mem_map.mpr ⟨p, hmem, rfl⟩
        rw [List.map_cons, List.nodup_cons] at hn
        exact hn.1 (heq ▸ hpm)
      rw [List.find?_cons_of_neg _ (by simpa using hq)]
      exact ih (by rw [List.map_cons, List.nodup_cons] at hn; exact hn.2) hmem

/-- A successful varint read consumes at least one byte. -/
theorem readVarintList_length :
    ∀ {l r : List Nat} {v : Nat}, readVarintList l = some (v, r) →
      r.length < l.length := by
  intro l
  induction l with
  | nil => intro r v h; simp [readVarintList] at h
  | cons b rest ih =>
    intro r v h
    simp only [readVarintList] at h
    split at h
    · simp only [Option.some.injEq, Prod.mk.injEq] at h
      obtain ⟨-, rfl⟩ := h
      simp
    · cases hr : readVarintList rest with
      | none => rw [hr] at h; cases h
      | some p =>
        obtain ⟨v', r'⟩ := p
        rw [hr] at h
        simp only [Option.some.injEq, Prod.mk.injEq] at h
        obtain ⟨-, rfl⟩ := h
        have := ih hr
        simp only [List.length_cons]
        omega

/-- Skipping a varint never grows the remaining bytes. -/
theorem skipVarintList_length : ∀ l : List Nat, (skipVarintList l).length ≤ l.length := by
  intro l
  induction l with
  | nil => simp [skipVarintList]
  | cons b rest ih =>
    simp only [skipVarintList]
    split
    · simp only [List.length_cons]; omega
    · simp

/-- A successful field skip never grows the remaining bytes. -/
theorem skipFieldBytes_length {wt : Nat} {l r : List Nat}
    (h : skipFieldBytes wt l = some r) : r.length ≤ l.length := by
  unfold skipFieldBytes at h
  split_ifs at h
  · obtain rfl : skipVarintList l = r := Option.some.inj h
    exact skipVarintList_length l
  · obtain rfl : l.drop 8 = r := Option.some.inj h
    simp [List.length_drop]
  · cases hr : readVarintList l with
    | none => rw [hr] at h; cases h
    | some p =>
      obtain ⟨len, r1⟩ := p
      rw [hr] at h
      obtain rfl : r1.drop len = r := Option.some.inj h
      have := readVarintList_length hr
      simp only [List.length_drop]
      omega
  · obtain rfl : l.drop 4 = r := Option.some.inj h
    simp [List.length_drop]

/-- The generated read loop is independent of the fuel once the fuel
exceeds the input length (each iteration consumes at least one byte). -/
theorem readMsgLoopF_fuel (decl : List Nat) :
    ∀ (f1 f2 : Nat) (msg : MsgState) (bytes : List Nat),
      bytes.length < f1 → bytes.length < f2 →
      readMsgLoopF decl f1 msg bytes = readMsgLoopF decl f2 msg bytes := by
  intro f1
  induction f1 with
  | zero => intro f2 msg bytes h1 h2; exact absurd h1 (Nat.not_lt_zero _)
  | succ f ih =>
    intro f2 msg bytes h1 h2
    cases f2 with
    | zero => exact absurd h2 (Nat.not_lt_zero _)
    | succ g =>
      simp only [readMsgLoopF]
      cases hr : readVarintList bytes with
      | none => rfl
      | some p =>
        obtain ⟨tag, r1⟩ := p
        have hlen1 : r1.length < bytes.length := readVarintList_length hr
        by_cases hm : tag / 8 ∈ decl
        · simp only [if_pos hm]
          cases hr2 : readVarintList r1 with
          | none => rfl
          | some q =>
            obtain ⟨v, r2⟩ := q
            have hlen2 : r2.length < r1.length := readVarintList_length hr2
            exact ih g _ r2 (by omega) (by omega)
        · simp only [if_neg hm]
          cases hr2 : skipFieldBytes (tag % 8) r1 with
          | none => rfl
          | some r2 =>
            have hlen2 : r2.length ≤ r1.length := skipFieldBytes_length hr2
            exact ih g _ r2 (by omega) (by omega)

/-- A varint encoding is never empty. -/
theorem varintEnc_ne_nil (n : Nat) : varintEnc n ≠ [] := by
  rw [varintEnc]
  split <;> simp

/-- Reading a varint from its encoding recovers the value and leaves
exactly the trailing bytes. -/
theorem varintEnc_read (n : Nat) (rest : List Nat) :
    readVarintList (varintEnc n ++ rest) = some (n, rest) := by
  induction n using Nat.strong_induction_on with
  | _ n ih =>
    rw [varintEnc]
    split
    · rename_i hn
      simp [readVarintList, hn]
    · rename_i hn
      simp only [List.cons_append, List.append_eq, readVarintList]
      rw [if_neg (by omega)]
      rw [ih (n / 128) (Nat.div_lt_self (by omega) (by omega))]
      show some ((n % 128 + 128) % 128 + 128 * (n / 128), rest) = some (n, rest)
      have heq : (n % 128 + 128) % 128 + 128 * (n / 128) = n := by omega
      rw [heq]

/-- Small bytes have no continuation bit. -/
theorem land_128_of_lt {b : Nat} (h : b < 128) : b &&& 128 = 0 := by
  have hall : ∀ c, c < 128 → c &&& 128 = 0 := by decide
  exact hall b h

/-- Continuation bytes have the continuation bit. -/
theorem land_128_of_cont {b : Nat} (h : b < 128) : (b + 128) &&& 128 ≠ 0 := by
  have hall : ∀ c, c < 128 → (c + 128) &&& 128 ≠ 0 := by decide
  exact hall b h

/-- `skipVarint` consumes exactly a varint encoding. -/
theorem varintEnc_skip (n : Nat) (rest : List Nat) :
    skipVarintList (varintEnc n ++ rest) = rest := by
  induction n using Nat.strong_induction_on with
  | _ n ih =>
    rw [varintEnc]
    split
    · rename_i hn
      simp only [List.singleton_append, skipVarintList]
      rw [if_neg (by simp [land_128_of_lt hn])]
      simp
    · rename_i hn
      simp only [List.cons_append, skipVarintList]
      rw [if_pos (by simpa [bne_iff_ne] using land_128_of_cont (Nat.mod_lt n (by omega)))]
      exact ih (n / 128) (Nat.div_lt_self (by omega) (by omega))

/-- `skipField` consumes exactly a well-formed record's payload. -/
theorem skipFieldBytes_payload (r : FieldRec) (rest : List Nat) (hw : r.Wf) :
    skipFieldBytes r.wt (r.payload ++ rest) = some rest := by
  cases r with
  | varintRec fn v =>
    simp only [FieldRec.wt, FieldRec.payload, skipFieldBytes, if_pos]
    rw [varintEnc_skip]
  | fixed64Rec fn b =>
    have hb : b.length = 8 := hw
    simp only [FieldRec.wt, FieldRec.payload, skipFieldBytes]
    norm_num
    rw [← hb, List.drop_left]
  | delimRec fn data =>
    simp only [FieldRec.wt, FieldRec.payload, skipFieldBytes]
    norm_num
    rw [varintEnc_read]
    simp only []
    rw [List.drop_left]
  | fixed32Rec fn b =>
    have hb : b.length = 4 := hw
    simp only [FieldRec.wt, FieldRec.payload, skipFieldBytes]
    norm_num
    rw [← hb, List.drop_left]

/-- A record with an undeclared field number has no semantic effect. -/
theorem applyRec_not_mem (decl : List Nat) (msg : MsgState) (r : FieldRec)
    (h : r.fn ∉ decl) : applyRec decl msg r = msg := by
  cases r with
  | varintRec fn v => simp only [FieldRec.fn] at h; simp [applyRec, h]
  | fixed64Rec fn b => rfl
  | delimRec fn data => rfl
  | fixed32Rec fn b => rfl

/-- Record encodings are never empty. -/
theorem enc_length_pos (r : FieldRec) : 0 < r.enc.length := by
  rw [FieldRec.enc, List.length_append]
  have h := List.length_pos.mpr (varintEnc_ne_nil (r.fn * 8 + r.wt))
  omega

/-- One iteration of the generated read loop processes one leading
well-formed record: a declared (varint) field number dispatches to the
scalar read and assignment, an undeclared one to `skipField`, and in
both cases the loop continues exactly at the record boundary. -/
theorem readMsgLoopF_record (decl : List Nat) (msg : MsgState) (r : FieldRec)
    (tail : List Nat) (f : Nat) (hw : r.Wf) (hv : r.fn ∈ decl → r.isVarint = true) :
    readMsgLoopF decl (f + 1) msg (r.enc ++ tail) =
      readMsgLoopF decl f (applyRec decl msg r) tail := by
  have htag : readVarintList (r.enc ++ tail) =
      some (r.fn * 8 + r.wt, r.payload ++ tail) := by
    rw [FieldRec.enc, List.append_assoc, varintEnc_read]
  have hwt8 : r.wt < 8 := by cases r <;> simp [FieldRec.wt]
  have hfn : (r.fn * 8 + r.wt) / 8 = r.fn := by omega
  have hwt : (r.fn * 8 + r.wt) % 8 = r.wt := by omega
  simp only [readMsgLoopF]
  cases hcase : readVarintList (r.enc ++ tail) with
  | none => rw [htag] at hcase; cases hcase
  | some p =>
    obtain ⟨tag, r1⟩ := p
    rw [htag] at hcase
    simp only [Option.some.injEq, Prod.mk.injEq] at hcase
    obtain ⟨rfl, rfl⟩ := hcase
    simp only [hfn, hwt]
    by_cases hm : r.fn ∈ decl
    · have hvr := hv hm
      cases r with
      | varintRec fn v =>
        simp only [FieldRec.payload, FieldRec.fn] at *
        rw [if_pos hm]
        cases hc2 : readVarintList (varintEnc v ++ tail) with
        | none => rw [varintEnc_read] at hc2; cases hc2
        | some q =>
          obtain ⟨v', r2⟩ := q
          rw [varintEnc_read] at hc2
          simp only [Option.some.injEq, Prod.mk.injEq] at hc2
          obtain ⟨rfl, rfl⟩ := hc2
          simp only [applyRec]
          rw [if_pos hm]
      | fixed64Rec fn b => simp [FieldRec.isVarint] at hvr
      | delimRec fn data => simp [FieldRec.isVarint] at hvr
      | fixed32Rec fn b => simp [FieldRec.isVarint] at hvr
    · rw [if_neg hm]
      cases hc2 : skipFieldBytes r.wt (r.payload ++ tail) with
      | none => rw [skipFieldBytes_payload r tail hw] at hc2; cases hc2
      | some r2 =>
        rw [skipFieldBytes_payload r tail hw] at hc2
        obtain rfl : tail = r2 := Option.some.inj hc2
        rw [applyRec_not_mem decl msg r hm]

/-- The loop on a complete input processes one leading record and
continues on the tail. -/
theorem readMsgLoop_record (decl : List Nat) (msg : MsgState) (r : FieldRec)
    (tail : List Nat) (hw : r.Wf) (hv : r.fn ∈ decl → r.isVarint = true) :
    readMsgLoop decl msg (r.enc ++ tail) =
      readMsgLoop decl (applyRec decl msg r) tail := by
  have hlen : tail.length < (r.enc ++ tail).length := by
    have := enc_length_pos r
    simp only [List.length_append]
    omega
  unfold readMsgLoop
  rw [readMsgLoopF_record decl msg r tail ((r.enc ++ tail).length) hw hv]
  exact readMsgLoopF_fuel decl _ _ _ tail hlen (by omega)

/-- Decoding a well-formed record stream folds the records' semantic
effects over the initial message. -/
theorem readMsgLoop_stream (decl : List Nat) :
    ∀ (rs : List FieldRec) (msg : MsgState), WfStream decl rs →
      readMsgLoop decl msg (streamEnc rs) = rs.foldl (applyRec decl) msg := by
  intro rs
  induction rs with
  | nil => intro msg h; rfl
  | cons r rs ih =>
    intro msg h
    have hstream : streamEnc (r :: rs) = r.enc ++ streamEnc rs := by
      simp [streamEnc]
    rw [hstream,
      readMsgLoop_record decl msg r (streamEnc rs) (h r (List.mem_cons_self _ _)).1
        (h r (List.mem_cons_self _ _)).2,
      List.foldl_cons]
    exact ih (applyRec decl msg r) (fun x hx => h x (List.mem_cons_of_mem _ hx))

/-- A continuation-loop step of `readSplitVarint64` over a window of
continuation bytes consumes one byte per shift and ends with a byte that
still has the continuation bit. -/
theorem svLoop_all (bytes : List Nat) :
    ∀ (shifts : List Nat) (c temp acc : Nat), 128 ≤ temp →
      (∀ k, k < shifts.length → 128 ≤ bytes.getD (c + k) 0) →
      (svLoop bytes shifts c temp acc).1 = c + shifts.length ∧
      128 ≤ (svLoop bytes shifts c temp acc).2.1 := by
  intro shifts
  induction shifts with
  | nil => intro c temp acc ht _; simpa [svLoop] using ht
  | cons s rest ih =>
    intro c temp acc ht hb
    simp only [svLoop, if_pos ht]
    have hb0 : 128 ≤ bytes.getD c 0 := by simpa using hb 0 (by simp)
    have hwin : ∀ k, k < rest.length → 128 ≤ bytes.getD (c + 1 + k) 0 := by
      intro k hk
      have h1 := hb (k + 1) (by simpa using Nat.succ_lt_succ hk)
      have heq : c + (k + 1) = c + 1 + k := by omega
      rwa [heq] at h1
    have hrec := ih (c + 1) (bytes.getD c 0)
      ((acc ||| ((bytes.getD c 0 &&& 127) <<< s)) % 2 ^ 32) hb0 hwin
    refine ⟨?_, hrec.2⟩
    rw [hrec.1]
    simp only [List.length_cons]
    omega

/-- Claim C1, corrected: on an input whose next ten bytes all carry the
continuation bit, `readSplitVarint64` fails (produces no value), sets
the error flag, and `getError` reports true afterwards; but the 32-bit
path `readUnsignedVarint32` merely consumes the ten bytes and returns a
truncated value, leaving the error flag unchanged. -/
theorem claim_C1 (d : BinaryDecoder)
    (h : ∀ k, k < 10 → 128 ≤ getByte d (d.cursor + k)) :
    ((readSplitVarint64 d).1 = none ∧ (readSplitVarint64 d).2.getError = true) ∧
    (readUnsignedVarint32 d).2.error = d.error ∧
    (readUnsignedVarint32 d).2.cursor = d.cursor + 10 := by
  have hgb : ∀ k, k < 10 → 128 ≤ d.bytes.getD (d.cursor + k) 0 := fun k hk =>
    h k hk
  constructor
  · have h1 := svLoop_all d.bytes [0, 7, 14, 21] d.cursor 128 0 (by norm_num)
      (fun k hk => hgb k (by simp at hk; omega))
    have h4 : 128 ≤ getByte d (d.cursor + 4) := h 4 (by norm_num)
    have hwin2 : ∀ k, k < ([3, 10, 17, 24, 31] : List Nat).length →
        128 ≤ d.bytes.getD (d.cursor + 4 + 1 + k) 0 := by
      intro k hk
      simp only [List.length_cons, List.length_nil] at hk
      have := hgb (5 + k) (by omega)
      have heq : d.cursor + (5 + k) = d.cursor + 4 + 1 + k := by omega
      rwa [heq] at this
    have h1c : (svLoop d.bytes [0, 7, 14, 21] d.cursor 128 0).1 = d.cursor + 4 := by
      simpa using h1.1
    simp only [readSplitVarint64]
    rw [h1c, if_pos h1.2, if_pos h4]
    have h2 := svLoop_all d.bytes [3, 10, 17, 24, 31] (d.cursor + 4 + 1)
      (getByte d (d.cursor + 4)) ((getByte d (d.cursor + 4) &&& 127) >>> 4) h4 hwin2
    rw [if_neg (Nat.not_lt.mpr h2.2)]
    exact ⟨rfl, by simp [BinaryDecoder.getError]⟩
  · have hn : ∀ k, k < 10 → ¬getByte d (d.cursor + k) < 128 := fun k hk =>
      Nat.not_lt.mpr (h k hk)
    simp only [readUnsignedVarint32]
    rw [if_neg (hn 0 (by norm_num)), if_neg (hn 1 (by norm_num)),
      if_neg (hn 2 (by norm_num)), if_neg (hn 3 (by norm_num)),
      if_neg (hn 4 (by norm_num)), if_neg (hn 5 (by norm_num)),
      if_neg (hn 6 (by norm_num)), if_neg (hn 7 (by norm_num)),
      if_neg (hn 8 (by norm_num))]
    exact ⟨rfl, rfl⟩

/-- Claim C1 as stated is false for the 32-bit path: on a ten-byte block
of continuation bytes (a varint that does not terminate within ten
bytes), `readUnsignedVarint32` leaves the decoder with `getError()`
still false. -/
theorem claim_C1_counterexample :
    (∀ k, k < 10 →
      128 ≤ getByte ⟨List.replicate 10 128, 0, 10, 0, false⟩ (0 + k)) ∧
    (readUnsignedVarint32 ⟨List.replicate 10 128, 0, 10, 0, false⟩).2.getError
      = false := by
  constructor
  · decide
  · decide

/-- Claim C1, instantiated on the ten-continuation-byte block: the
64-bit read fails with the error flag set while the 32-bit read advances
the cursor by ten without failing. -/
theorem claim_C1_witness :
    (readSplitVarint64 ⟨List.replicate 10 128, 0, 10, 0, false⟩).1 = none ∧
    (readSplitVarint64 ⟨List.replicate 10 128, 0, 10, 0, false⟩).2.getError = true ∧
    (readUnsignedVarint32 ⟨List.replicate 10 128, 0, 10, 0, false⟩).2.cursor
      = 0 + 10 := by
  have hc := claim_C1 ⟨List.replicate 10 128, 0, 10, 0, false⟩ (by decide)
  exact ⟨hc.1.1, hc.1.2, hc.2.2⟩

/-- Claim C2, corrected: `readBytes` sets the error flag and returns the
empty array exactly when the length is negative or the read would pass
the end of the *underlying buffer* (`bytes_.length`, not the block end
`end_`); otherwise it returns the subarray at the cursor and advances
the cursor by the length — possibly past the block end, in which case
the error flag stays clear but `getError()` subsequently reports
true. -/
theorem claim_C2 (d : BinaryDecoder) (length : Int) :
    (length < 0 ∨ (d.cursor : Int) + length > (d.bytes.length : Int) →
      readBytes d length = ([], { d with error := true })) ∧
    (¬(length < 0 ∨ (d.cursor : Int) + length > (d.bytes.length : Int)) →
      readBytes d length =
        ((d.bytes.drop d.cursor).take length.toNat,
          { d with cursor := d.cursor + length.toNat })) ∧
    (¬(length < 0 ∨ (d.cursor : Int) + length > (d.bytes.length : Int)) →
      d.error = false → (d.end_ : Int) < (d.cursor : Int) + length →
      (readBytes d length).2.getError = true) := by
  refine ⟨?_, ?_, ?_⟩
  · intro h
    unfold readBytes
    rw [if_pos h]
  · intro h
    unfold readBytes
    rw [if_neg h]
  · intro h herr hpast
    unfold readBytes BinaryDecoder.getError
    rw [if_neg h]
    push_neg at h
    simp only [herr, Bool.false_or, decide_eq_true_eq]
    omega

/-- Claim C2 as stated is false: with block `[start, end_) = [0, 2)` over
the three-byte buffer `[1, 2, 3]`, `readBytes 3` reads past the block
end yet neither sets the error flag nor returns an empty array — it
returns the full subarray and advances the cursor beyond `end_`. -/
theorem claim_C2_counterexample :
    ((⟨[1, 2, 3], 0, 2, 0, false⟩ : BinaryDecoder).end_ : Int) < 0 + 3 ∧
    (readBytes ⟨[1, 2, 3], 0, 2, 0, false⟩ 3).2.error = false ∧
    (readBytes ⟨[1, 2, 3], 0, 2, 0, false⟩ 3).1 = [1, 2, 3] := by
  refine ⟨by norm_num, by decide, by decide⟩

/-- Claim C2, corrected, instantiated: the same decoder evaluated
through the theorem — the in-buffer read succeeds with the cursor
advanced past the block end and `getError` then reports true. -/
theorem claim_C2_witness :
    readBytes ⟨[1, 2, 3], 0, 2, 0, false⟩ 3 =
      ([1, 2, 3], ⟨[1, 2, 3], 0, 2, 3, false⟩) ∧
    (readBytes ⟨[1, 2, 3], 0, 2, 0, false⟩ 3).2.getError = true := by
  have hc := claim_C2 ⟨[1, 2, 3], 0, 2, 0, false⟩ 3
  refine ⟨(hc.2.1 (by norm_num)).trans (by decide), hc.2.2 (by norm_num) rfl (by norm_num)⟩

/-- Claim C3: zigzag decoding inverts zigzag encoding — the decoder's
32-bit formula applied to the zigzag encoding of any signed 32-bit `s`
yields `s`, and the two-half 64-bit decode `joinZigzag64` applied to the
halves of the 64-bit zigzag encoding of any `s` in `[-2^63, 2^63)`
yields `s`. -/
theorem claim_C3 (s : Int) :
    (-2 ^ 31 ≤ s ∧ s < 2 ^ 31 → zigzagDecode32 (zigzagEncode32 s) = s) ∧
    (-2 ^ 63 ≤ s ∧ s < 2 ^ 63 →
      joinZigzag64 (zigzagEncode64 s % 2 ^ 32) (zigzagEncode64 s / 2 ^ 32) = s) := by
  constructor
  · rintro ⟨hlo, hhi⟩
    by_cases hs : 0 ≤ s
    · have henc : zigzagEncode32 s = 2 * s.toNat := by
        unfold zigzagEncode32; rw [if_pos hs]; omega
      rw [henc]
      unfold zigzagDecode32
      have h1 : 2 * s.toNat % 2 ^ 32 = 2 * s.toNat := Nat.mod_eq_of_lt (by omega)
      have h2 : 2 * s.toNat % 2 = 0 := by omega
      rw [h1, h2]
      rw [if_neg (by omega)]
      have h3 : 2 * s.toNat / 2 = s.toNat := by omega
      rw [h3, Nat.xor_zero]
      unfold toInt32
      rw [Nat.mod_eq_of_lt (by omega), if_pos (by omega)]
      omega
    · have hm1 : 1 ≤ (-s).toNat := by omega
      have hm2 : (-s).toNat ≤ 2 ^ 31 := by omega
      have henc : zigzagEncode32 s = 2 * (-s).toNat - 1 := by
        unfold zigzagEncode32; rw [if_neg hs]; omega
      rw [henc]
      unfold zigzagDecode32
      have h1 : (2 * (-s).toNat - 1) % 2 ^ 32 = 2 * (-s).toNat - 1 :=
        Nat.mod_eq_of_lt (by omega)
      have h2 : (2 * (-s).toNat - 1) % 2 = 1 := by omega
      rw [h1, h2, if_pos rfl]
      have h3 : (2 * (-s).toNat - 1) / 2 = (-s).toNat - 1 := by omega
      rw [h3, xor_all_ones (by omega : (-s).toNat - 1 < 2 ^ 32)]
      unfold toInt32
      have h4 : 2 ^ 32 - 1 - ((-s).toNat - 1) = 2 ^ 32 - (-s).toNat := by omega
      rw [h4, Nat.mod_eq_of_lt (by omega), if_neg (by omega)]
      omega
  · rintro ⟨hlo, hhi⟩
    have henc_lt : zigzagEncode64 s < 2 ^ 64 := by
      unfold zigzagEncode64; split <;> omega
    simp only [joinZigzag64]
    have hsplit : zigzagEncode64 s / 2 ^ 32 % 2 ^ 32 * 2 ^ 32 +
        zigzagEncode64 s % 2 ^ 32 % 2 ^ 32 = zigzagEncode64 s := by
      omega
    rw [hsplit]
    by_cases hs : 0 ≤ s
    · have henc : zigzagEncode64 s = 2 * s.toNat := by
        unfold zigzagEncode64; rw [if_pos hs]; omega
      rw [henc]
      have h2 : 2 * s.toNat % 2 = 0 := by omega
      rw [h2]
      rw [if_neg (by omega)]
      have h3 : 2 * s.toNat / 2 = s.toNat := by omega
      rw [h3, Nat.xor_zero]
      unfold toInt64
      rw [Nat.mod_eq_of_lt (by omega), if_pos (by omega)]
      omega
    · have hm1 : 1 ≤ (-s).toNat := by omega
      have hm2 : (-s).toNat ≤ 2 ^ 63 := by omega
      have henc : zigzagEncode64 s = 2 * (-s).toNat - 1 := by
        unfold zigzagEncode64; rw [if_neg hs]; omega
      rw [henc]
      have h2 : (2 * (-s).toNat - 1) % 2 = 1 := by omega
      rw [h2, if_pos rfl]
      have h3 : (2 * (-s).toNat - 1) / 2 = (-s).toNat - 1 := by omega
      rw [h3, xor_all_ones (by omega : (-s).toNat - 1 < 2 ^ 64)]
      unfold toInt64
      have h4 : 2 ^ 64 - 1 - ((-s).toNat - 1) = 2 ^ 64 - (-s).toNat := by omega
      rw [h4, Nat.mod_eq_of_lt (by omega), if_neg (by omega)]
      omega

/-- Claim C3, instantiated at `s = -5`: both zigzag round-trips recover
the value. -/
theorem claim_C3_witness :
    zigzagDecode32 (zigzagEncode32 (-5)) = -5 ∧
    joinZigzag64 (zigzagEncode64 (-5) % 2 ^ 32) (zigzagEncode64 (-5) / 2 ^ 32)
      = -5 :=
  ⟨(claim_C3 (-5)).1 (by norm_num), (claim_C3 (-5)).2 (by norm_num)⟩

/-! Claims. -/

/-- Claim C7: for a message type with no fields, the generated binary
`encode` returns an empty byte sequence for every argument, the
generated binary `decode` returns the empty message for every input
bytes, and the generated JSON `encode` returns the string of an empty
JSON object. -/
theorem claim_C7 :
    (∀ msg : Option EmptyMessage, emptyMessageEncode msg = []) ∧
    (∀ bytes : List Nat, emptyMessageDecode bytes = {}) ∧
    (∀ msg : Option EmptyMessage, emptyMessageEncodeJSON msg = "\x7b\x7d") :=
  ⟨fun _ => rfl, fun _ => rfl, fun _ => rfl⟩

/-- Claim C9: the decoder instance cache never exceeds 100 entries:
every sequence of `alloc`/`free` calls starting from the initial empty
cache keeps `instanceCache_.length` at most 100; `free` appends the
cleared decoder exactly when the cache holds fewer than 100 entries and
leaves it untouched otherwise. -/
theorem claim_C9 :
    (∀ ops : List CacheOp, (cacheRun ops []).length ≤ 100) ∧
    (∀ (d : BinaryDecoder) (cache : List BinaryDecoder),
      100 ≤ cache.length → freeDecoder d cache = cache) ∧
    (∀ (d : BinaryDecoder) (cache : List BinaryDecoder),
      cache.length < 100 → freeDecoder d cache = cache ++ [clearDecoder d]) := by
  refine ⟨fun ops => cacheRun_le ops [] (by simp), ?_, ?_⟩
  · intro d cache h
    simp [freeDecoder, Nat.not_lt.mpr h]
  · intro d cache h
    simp [freeDecoder, h]

/-- Claim C9, instantiated: freeing onto the empty cache respects the
bound, and freeing onto a full 100-entry cache leaves it unchanged. -/
theorem claim_C9_witness :
    (cacheRun [CacheOp.free ⟨[], 0, 0, 0, false⟩] []).length ≤ 100 ∧
    freeDecoder ⟨[], 0, 0, 0, false⟩
        (List.replicate 100 ⟨[], 0, 0, 0, false⟩) =
      List.replicate 100 ⟨[], 0, 0, 0, false⟩ :=
  ⟨claim_C9.1 _, claim_C9.2.1 _ _ (by simp)⟩

/-- Claim C5: the generated JSON `_readMessage` selects a field's value
by the fallback chain `jsonName`, then the generated attribute name,
then the proto field name, in that order; the generator's suppression of
duplicate candidate keys does not change the selected value. -/
theorem claim_C5 (jsonName name protoName : String) (j : JsObj) :
    codeGetField jsonName name protoName j = specGetField jsonName name protoName j := by
  unfold codeGetField specGetField
  by_cases h1 : name = jsonName
  · by_cases h2 : protoName = name
    · simp only [h1, h2, ne_eq, not_true_eq_false, if_false, List.filterMap]
      by_cases hn : nullish (lookupJson j jsonName) <;> simp [coalesceChain, hn]
    · have h2' : ¬protoName = jsonName := by rw [← h1]; exact h2
      simp only [h1, h2', ne_eq, not_true_eq_false, not_false_eq_true, if_true,
        if_false, List.filterMap]
      by_cases hn : nullish (lookupJson j jsonName) <;> simp [coalesceChain, hn]
  · by_cases h2 : protoName = name
    · simp only [h1, h2, ne_eq, not_false_eq_true, if_true, not_true_eq_false,
        if_false, List.filterMap]
      by_cases hn : nullish (lookupJson j jsonName) <;>
        by_cases hn2 : nullish (lookupJson j name) <;> simp [coalesceChain, hn, hn2]
    · simp only [h1, h2, ne_eq, not_false_eq_true, if_true, List.filterMap]
      rfl

/-- Claim C6: generated enum converters preserve unknown values as raw
numbers and round-trip: with distinct enumerator names, a declared value
`i` maps by `_fromInt` to an enumerator name whose `_toInt` is `i`
again, and an undeclared `i` passes through `_fromInt` as the raw number
`i`, which `_toInt` preserves. -/
theorem claim_C6 (e : EnumDef) (i : Int) (hn : (e.map Prod.fst).Nodup) :
    ((∃ p ∈ e, p.2 = i) →
      ∃ n, (n, i) ∈ e ∧ fromIntJs e i = .str n ∧
        toIntJs e (fromIntJs e i) = .num i) ∧
    ((∀ p ∈ e, p.2 ≠ i) →
      fromIntJs e i = .num i ∧ toIntJs e (fromIntJs e i) = .num i) := by
  constructor
  · rintro ⟨p, hp, hpv⟩
    obtain ⟨q, hq⟩ : ∃ q, e.find? (fun r => r.2 == i) = some q := by
      cases hfind : e.find? (fun r => r.2 == i) with
      | none =>
        exact absurd (by simpa using List.find?_eq_none.mp hfind p hp) (by simp [hpv])
      | some q => exact ⟨q, rfl⟩
    have hqv : q.2 = i := by simpa using List.find?_some hq
    have hqm : q ∈ e := List.mem_of_find?_eq_some hq
    have hqpair : q = (q.1, i) := by rw [← hqv]
    refine ⟨q.1, hqpair ▸ hqm, ?_, ?_⟩
    · simp [fromIntJs, hq]
    · simp only [fromIntJs, hq, toIntJs, find?_name_of_nodup hn hqm, hqv]
  · intro h
    have hfind : e.find? (fun r => r.2 == i) = none :=
      List.find?_eq_none.mpr (by intro p hp; simpa using h p hp)
    exact ⟨by simp [fromIntJs, hfind], by simp [fromIntJs, hfind, toIntJs]⟩

/-- Claim C6, instantiated on the enum `A=0, B=1`: the declared value 1
round-trips through name `B`, and the unknown value 7 passes through as
the raw number 7 and is preserved by re-encoding. -/
theorem claim_C6_witness :
    fromIntJs [("A", 0), ("B", 1)] 7 = .num 7 ∧
    toIntJs [("A", 0), ("B", 1)] (fromIntJs [("A", 0), ("B", 1)] 7) = .num 7 ∧
    ∃ n, (n, (1 : Int)) ∈ ([("A", 0), ("B", 1)] : EnumDef) ∧
      fromIntJs [("A", 0), ("B", 1)] 1 = .str n ∧
      toIntJs [("A", 0), ("B", 1)] (fromIntJs [("A", 0), ("B", 1)] 1) = .num 1 := by
  have h7 := (claim_C6 [("A", 0), ("B", 1)] 7 (by decide)).2 (by decide)
  have h1 := (claim_C6 [("A", 0), ("B", 1)] 1 (by decide)).1 ⟨("B", 1), by decide, rfl⟩
  exact ⟨h7.1, h7.2, h1⟩

/-- Claim C4: the generated binary `_writeMessage` emits a field iff the
spec's emission policy for its shape holds: repeated or bytes fields
write iff the sequence is non-empty, proto3 optional fields iff the
value is set, enum fields iff the value maps to a non-zero integer, and
any other scalar or message field iff the value is truthy — given that
sequence fields hold sequence-typed (or unset) values, enum fields hold
valid enum values, and enumerator names are non-empty. -/
theorem claim_C4 (e : EnumDef) (f : FieldMeta) (v : JsValue)
    (hnames : ∀ p ∈ e, p.1 ≠ "")
    (hseq : (f.repeated || f.read == .readBytes) = true → isSeqLike v = true)
    (henum : f.read = .readEnum → isValidEnumVal e v = true) :
    emitGuard e f v = specWritePolicy e f v := by
  unfold emitGuard specWritePolicy
  by_cases hrb : (f.repeated || f.read == .readBytes) = true
  · simp only [hrb, if_true]
    have := hseq hrb
    cases v <;> simp_all [isSeqLike, lengthTruthy, isNonEmptySeq]
  · have hrb' : (f.repeated || f.read == ReadTag.readBytes) = false := by
      simpa using hrb
    simp only [hrb', Bool.false_eq_true, if_false]
    by_cases hopt : f.optional = true
    · simp [hopt]
    · have hopt' : f.optional = false := by simpa using hopt
      simp only [hopt', Bool.false_eq_true, if_false]
      by_cases he : (f.read == ReadTag.readEnum) = true
      · simp only [he, if_true]
        have hv := henum (by simpa using he)
        cases v with
        | num n => simp [toIntJs, truthy]
        | str s =>
          obtain ⟨p, hp⟩ : ∃ p, e.find? (fun q => q.1 == s) = some p := by
            cases hfind : e.find? (fun q => q.1 == s) with
            | none => simp [isValidEnumVal, hfind] at hv
            | some p => exact ⟨p, rfl⟩
          have hs : s ≠ "" := by
            have hps : p.1 = s := by simpa using List.find?_some hp
            exact hps ▸ hnames p (List.mem_of_find?_eq_some hp)
          simp [toIntJs, truthy, hp, hs]
        | bool b => simp [isValidEnumVal] at hv
        | null => simp [isValidEnumVal] at hv
        | jsUndefined => simp [isValidEnumVal] at hv
        | arr len => simp [isValidEnumVal] at hv
        | bytes len => simp [isValidEnumVal] at hv
        | obj => simp [isValidEnumVal] at hv
      · simp [he]

/-- Claim C4, instantiated: an enum field holding the declared name `B`
(value 1) is emitted under both the generated guard and the spec
policy. -/
theorem claim_C4_witness :
    emitGuard [("A", 0), ("B", 1)] ⟨false, false, .readEnum⟩ (.str "B") =
      specWritePolicy [("A", 0), ("B", 1)] ⟨false, false, .readEnum⟩ (.str "B") :=
  claim_C4 [("A", 0), ("B", 1)] ⟨false, false, .readEnum⟩ (.str "B")
    (by decide) (by decide) (fun _ => by decide)

/-- Claim C10 as stated is false: with both the `jsonName` key mapped to
the default `0` and the `protoName` alias key mapped to `5` present,
removing the `jsonName` key changes the decoded field (the `??` chain
then reaches the alias), so decoding a default-valued key is not always
the same as decoding without it. -/
theorem claim_C10_counterexample :
    jsonReadScalarField "fooBar" "fooBar" "foo_bar" id
        [("fooBar", .num 0), ("foo_bar", .num 5)] (.num 0) = .num 0 ∧
    jsonReadScalarField "fooBar" "fooBar" "foo_bar" id
        [("foo_bar", .num 5)] (.num 0) = .num 5 ∧
    JsValue.num 0 ≠ JsValue.num 5 := by
  refine ⟨by decide, by decide, by decide⟩

/-- Claim C10, amended: for every non-repeated, non-message scalar field
— plain, 64-bit integer (bigint) or bytes, i.e. for any converter the
generated code applies inside the truthiness guard — decoding a JSON
object that maps the field's JSON key to a proto3 default value (0, "",
false, or null) produces the same result as decoding the object without
that key, provided the object binds no other accepted key of that field
(otherwise the falsy default would mask an alias that the `??` fallback
chain reaches once the key is removed). -/
theorem claim_C10 (jsonName name protoName : String)
    (conv : JsValue → JsValue) (dflt : JsValue) (j : JsObj) (cur : JsValue)
    (hd : dflt = .num 0 ∨ dflt = .str "" ∨ dflt = .bool false ∨ dflt = .null)
    (hj : ∀ p ∈ j, p.1 ≠ jsonName ∧ p.1 ≠ name ∧ p.1 ≠ protoName) :
    jsonReadScalarField jsonName name protoName conv ((jsonName, dflt) :: j) cur =
      jsonReadScalarField jsonName name protoName conv j cur := by
  have hdf : truthy dflt = false := by
    rcases hd with rfl | rfl | rfl | rfl <;> rfl
  have hcand : ∀ k ∈ ([some jsonName,
        if name ≠ jsonName then some name else none,
        if protoName ≠ name then some protoName else none].filterMap id),
      k = jsonName ∨ k = name ∨ k = protoName := by
    intro k hk
    obtain ⟨o, ho, hid⟩ := List.mem_filterMap.mp hk
    simp only [id_eq] at hid
    subst hid
    simp only [List.mem_cons, List.not_mem_nil, or_false] at ho
    rcases ho with h | h | h
    · exact Or.inl (Option.some.inj h)
    · split at h
      · exact Or.inr (Or.inl (Option.some.inj h))
      · cases h
    · split at h
      · exact Or.inr (Or.inr (Option.some.inj h))
      · cases h
  have hfalse2 : ∀ k, k = jsonName ∨ k = name ∨ k = protoName →
      truthy (lookupJson j k) = false := by
    intro k hk
    rcases hk with rfl | rfl | rfl
    · rw [lookupJson_eq_jsUndefined (fun p hp => (hj p hp).1)]; rfl
    · rw [lookupJson_eq_jsUndefined (fun p hp => (hj p hp).2.1)]; rfl
    · rw [lookupJson_eq_jsUndefined (fun p hp => (hj p hp).2.2)]; rfl
  have hfalse1 : ∀ k, k = jsonName ∨ k = name ∨ k = protoName →
      truthy (lookupJson ((jsonName, dflt) :: j) k) = false := by
    intro k hk
    by_cases hkj : jsonName = k
    · subst hkj; rw [lookupJson_cons_self]; exact hdf
    · rw [lookupJson_cons_ne _ _ _ _ hkj]
      exact hfalse2 k hk
  have hchain1 :
      truthy (codeGetField jsonName name protoName ((jsonName, dflt) :: j)) = false :=
    coalesceChain_falsy _ _ (fun k hk => hfalse1 k (hcand k hk))
  have hchain2 : truthy (codeGetField jsonName name protoName j) = false :=
    coalesceChain_falsy _ _ (fun k hk => hfalse2 k (hcand k hk))
  simp [jsonReadScalarField, hchain1, hchain2]

/-- Claim C10, amended, instantiated: with no alias key present, a JSON
object mapping the field's key to a default decodes to the same field
value as the empty JSON object — for a plain scalar field (identity
converter, default `0`) and for a bytes field (base64-decoding
converter, default `""`). -/
theorem claim_C10_witness :
    (jsonReadScalarField "fooBar" "fooBar" "foo_bar" id
        [("fooBar", .num 0)] (.num 0) =
      jsonReadScalarField "fooBar" "fooBar" "foo_bar" id [] (.num 0)) ∧
    (jsonReadScalarField "data" "data" "data" (fun _ => .bytes 0)
        [("data", .str "")] (.bytes 0) =
      jsonReadScalarField "data" "data" "data" (fun _ => .bytes 0) [] (.bytes 0)) :=
  ⟨claim_C10 "fooBar" "fooBar" "foo_bar" id (.num 0) [] (.num 0) (Or.inl rfl)
      (by intro p hp; cases hp),
    claim_C10 "data" "data" "data" (fun _ => .bytes 0) (.str "") [] (.bytes 0)
      (Or.inr (Or.inl rfl)) (by intro p hp; cases hp)⟩

/-- Claim C8: for every well-formed encoded message containing a record
whose field number is not declared in the message type, the generated
binary `_readMessage` takes the default dispatch case, skips exactly
that record's bytes, and decodes to the same message as the input with
the unknown record removed (unknown fields are not preserved). -/
theorem claim_C8 (decl : List Nat) (msg : MsgState) (pre post : List FieldRec)
    (u : FieldRec) (hwf : WfStream decl (pre ++ u :: post)) (hu : u.fn ∉ decl) :
    readMsgLoop decl msg (streamEnc (pre ++ u :: post)) =
      readMsgLoop decl msg (streamEnc (pre ++ post)) := by
  have hwf2 : WfStream decl (pre ++ post) := by
    intro r hr
    apply hwf
    rcases List.mem_append.mp hr with h | h
    · exact List.mem_append.mpr (Or.inl h)
    · exact List.mem_append.mpr (Or.inr (List.mem_cons_of_mem _ h))
  rw [readMsgLoop_stream decl _ msg hwf, readMsgLoop_stream decl _ msg hwf2,
    List.foldl_append, List.foldl_append, List.foldl_cons,
    applyRec_not_mem decl _ u hu]

/-- Claim C8, instantiated: a message type declaring field 1 decodes a
stream holding an unknown 32-bit field 2 followed by field 1 to the same
message as the stream without the unknown record. -/
theorem claim_C8_witness :
    readMsgLoop [1] [(1, 0)]
        (streamEnc [FieldRec.fixed32Rec 2 [9, 9, 9, 9], FieldRec.varintRec 1 5]) =
      readMsgLoop [1] [(1, 0)] (streamEnc [FieldRec.varintRec 1 5]) :=
  claim_C8 [1] [(1, 0)] [] [FieldRec.varintRec 1 5]
    (FieldRec.fixed32Rec 2 [9, 9, 9, 9]) (by decide) (by decide)

end ProtoScript
